import Mathlib

/-
Verification of a small chess engine (position representation, move
generation, FEN codec, move-text codec, material evaluator, and a minimax
search with alpha-beta pruning).  The definitions below are a shallow
embedding of the program: grids are 8x8 lists of optional piece characters,
squares are integer pairs (so that off-board arithmetic behaves like the
source's int arithmetic), strings are lists of characters, fallible
parsers return Option, and the float scores (which are exact here: all
material values are quarter-integers and the only non-finite values are
the initial -inf/+inf bounds) are modelled by rationals extended with a
bottom and a top element.
-/

namespace Chess

/-- The two colors; the source represents them as the strings "white" and
"black", and only ever constructs those two values. -/
inductive Color : Type where
  | white : Color
  | black : Color
deriving DecidableEq

/-- `opposite(color)`: returns "black" for "white" and "white" otherwise. -/
def Color.opposite : Color → Color
  | Color.white => Color.black
  | Color.black => Color.white

/-- Piece symbols are single characters ("P", "n", ...); the parser accepts
arbitrary non-digit characters, so the model keeps the full character type. -/
abbrev Piece := Char

/-- A square is a (row, col) pair of integers; the generators form sums like
`row + direction` that may leave the board, exactly as in the source. -/
abbrev Square := ℤ × ℤ

/-- A move: origin square, destination square, optional promotion symbol
(the source field is named `promotion`; shortened to `promo` here). -/
structure Move where
  from_sq : Square
  to_sq : Square
  promo : Option Piece
deriving DecidableEq

/-- A board position: an 8x8 grid of optional piece symbols plus the side
to move.  All positions built by the program have 8 rows of 8 cells. -/
structure Board where
  grid : List (List (Option Piece))
  turn : Color
deriving DecidableEq

/-- Python list indexing for the length-8 board lists: a negative index `i`
with `-8 ≤ i` addresses from the end (`i + 8`).  (For `i ≤ -9` the source
raises; such indices are never used by the program.) -/
def pyIx (i : ℤ) : ℕ := (if i < 0 then i + 8 else i).toNat

/-- Read one grid cell (row-major, `grid[r][c]`). -/
def cellGet (g : List (List (Option Piece))) (r c : ℕ) : Option Piece :=
  (g.getD r []).getD c none

/-- `piece_at(square)`: `self._grid[row][col]`. -/
def Board.pieceAt (b : Board) (sq : Square) : Option Piece :=
  cellGet b.grid (pyIx sq.1) (pyIx sq.2)

/-- `is_on_board(square)`: both coordinates in [0, 8). -/
def isOnBoard (sq : Square) : Bool :=
  decide (0 ≤ sq.1) && decide (sq.1 < 8) && decide (0 ≤ sq.2) && decide (sq.2 < 8)

/-- Write one grid cell (`grid[r][c] = v`). -/
def cellSet (g : List (List (Option Piece))) (r c : ℕ) (v : Option Piece) :
    List (List (Option Piece)) :=
  g.set r ((g.getD r []).set c v)

/-- `apply_move(move, switch_turn)`: read the origin piece, clear the origin
cell, write the destination cell with the piece (or with `move.promotion`
verbatim when it is set), and toggle the side to move iff `switch_turn`. -/
def Board.applyMove (b : Board) (m : Move) (switchTurn : Bool) : Board :=
  let piece := b.pieceAt m.from_sq
  let g1 := cellSet b.grid (pyIx m.from_sq.1) (pyIx m.from_sq.2) none
  let piece2 := match m.promo with
    | some p => some p
    | none => piece
  let g2 := cellSet g1 (pyIx m.to_sq.1) (pyIx m.to_sq.2) piece2
  Board.mk g2 (if switchTurn then b.turn.opposite else b.turn)

/-- The promotion choices, in the source's generation order. -/
def promoChoices : List Char := ['Q', 'R', 'B', 'N']

/-- Whether the piece at `target` may be captured by `color` (Python:
`color == "white" and piece.islower() or color == "black" and piece.isupper()`). -/
def capturable (c : Color) (p : Piece) : Bool :=
  (decide (c = Color.white) && p.isLower) || (decide (c = Color.black) && p.isUpper)

/-- `_pawn_moves`: single push (expanded into the four promotion moves on
the far rank), double push from the start rank, and the two diagonal
captures (likewise expanded on the far rank). -/
def pawnMoves (b : Board) (sq : Square) (c : Color) : List Move :=
  let row := sq.1
  let col := sq.2
  let dir : ℤ := if c = Color.white then -1 else 1
  let startRow : ℤ := if c = Color.white then 6 else 1
  let promotionRow : ℤ := if c = Color.white then 0 else 7
  let forward : Square := (row + dir, col)
  let pushPart : List Move :=
    if isOnBoard forward && decide (b.pieceAt forward = none) then
      (if forward.1 = promotionRow then
        promoChoices.map (fun p =>
          Move.mk sq forward (some (if c = Color.white then p else p.toLower)))
      else [Move.mk sq forward none]) ++
      (let double : Square := (row + 2 * dir, col)
       if decide (row = startRow) && decide (b.pieceAt double = none)
           && decide (b.pieceAt forward = none) then
         [Move.mk sq double none]
       else [])
    else []
  let capturePart : List Move :=
    [(-1 : ℤ), 1].flatMap (fun dc =>
      let target : Square := (row + dir, col + dc)
      if isOnBoard target then
        match b.pieceAt target with
        | none => []
        | some tp =>
          if capturable c tp then
            if target.1 = promotionRow then
              promoChoices.map (fun p =>
                Move.mk sq target (some (if c = Color.white then p else p.toLower)))
            else [Move.mk sq target none]
          else []
      else [])
  pushPart ++ capturePart

/-- The knight deltas, in the source's order. -/
def knightDeltas : List (ℤ × ℤ) :=
  [(-2, -1), (-2, 1), (-1, -2), (-1, 2), (1, -2), (1, 2), (2, -1), (2, 1)]

/-- `_knight_moves`: the eight fixed offsets, destination on board and
empty or holding an opposing piece. -/
def knightMoves (b : Board) (sq : Square) (c : Color) : List Move :=
  knightDeltas.flatMap (fun d =>
    let target : Square := (sq.1 + d.1, sq.2 + d.2)
    if isOnBoard target then
      match b.pieceAt target with
      | none => [Move.mk sq target none]
      | some p => if capturable c p then [Move.mk sq target none] else []
    else [])

/-- One ray of `_sliding_moves`: step while on board, through empty cells,
including a final capture square.  The fuel (16) strictly exceeds the 8
possible iterations of the source's while-loop. -/
def slideRay (b : Board) (sq : Square) (c : Color) (dr dc : ℤ) :
    ℕ → ℤ → ℤ → List Move
  | 0, _, _ => []
  | fuel + 1, r, cc =>
    if decide (0 ≤ r) && decide (r < 8) && decide (0 ≤ cc) && decide (cc < 8) then
      match b.pieceAt (r, cc) with
      | none => Move.mk sq (r, cc) none :: slideRay b sq c dr dc fuel (r + dr) (cc + dc)
      | some p => if capturable c p then [Move.mk sq (r, cc) none] else []
    else []

/-- `_sliding_moves` over a direction list. -/
def slidingMoves (b : Board) (sq : Square) (c : Color) (dirs : List (ℤ × ℤ)) : List Move :=
  dirs.flatMap (fun d => slideRay b sq c d.1 d.2 16 (sq.1 + d.1) (sq.2 + d.2))

/-- `_king_moves`: the 8 adjacent squares, same occupancy rule as knights. -/
def kingMoves (b : Board) (sq : Square) (c : Color) : List Move :=
  [(-1 : ℤ), 0, 1].flatMap (fun dr =>
    [(-1 : ℤ), 0, 1].flatMap (fun dc =>
      if dr = 0 ∧ dc = 0 then []
      else
        let target : Square := (sq.1 + dr, sq.2 + dc)
        if isOnBoard target then
          match b.pieceAt target with
          | none => [Move.mk sq target none]
          | some p => if capturable c p then [Move.mk sq target none] else []
        else []))

/-- `_moves_for_piece`: dispatch on the upper-cased piece symbol. -/
def movesForPiece (b : Board) (sq : Square) (piece : Piece) : List Move :=
  let c := if piece.isUpper then Color.white else Color.black
  let p := piece.toUpper
  if p = 'P' then pawnMoves b sq c
  else if p = 'N' then knightMoves b sq c
  else if p = 'B' then slidingMoves b sq c [(-1, -1), (-1, 1), (1, -1), (1, 1)]
  else if p = 'R' then slidingMoves b sq c [(-1, 0), (1, 0), (0, -1), (0, 1)]
  else if p = 'Q' then
    slidingMoves b sq c [(-1, -1), (-1, 1), (1, -1), (1, 1), (-1, 0), (1, 0), (0, -1), (0, 1)]
  else if p = 'K' then kingMoves b sq c
  else []

/-- `_generate_pseudo_moves(color)`: row-major scan of the grid, skipping
empty cells and pieces of the other case. -/
def pseudoMoves (b : Board) (c : Color) : List Move :=
  (List.range 8).flatMap (fun r =>
    (List.range 8).flatMap (fun col =>
      match cellGet b.grid r col with
      | none => []
      | some piece =>
        if (decide (c = Color.white) && !piece.isUpper)
            || (decide (c = Color.black) && !piece.isLower) then []
        else movesForPiece b ((r : ℤ), (col : ℤ)) piece))

/-- `_find_king(color)`: row-major scan for the king symbol of the color. -/
def Board.findKing (b : Board) (c : Color) : Option Square :=
  let sym : Char := if c = Color.white then 'K' else 'k'
  (((List.range 8).flatMap (fun r => (List.range 8).map (fun cc => (r, cc)))).find?
      (fun rc => decide (cellGet b.grid rc.1 rc.2 = some sym))).map
    (fun rc => ((rc.1 : ℤ), (rc.2 : ℤ)))

/-- `is_in_check(color)`: true when no king of the color exists, else true
iff some opponent pseudo-legal move targets the king square. -/
def Board.isInCheck (b : Board) (c : Color) : Bool :=
  match b.findKing c with
  | none => true
  | some ksq => (pseudoMoves b c.opposite).any (fun m => decide (m.to_sq = ksq))

/-- `generate_legal_moves(color)`: keep the pseudo-legal moves whose
application (side to move unchanged) does not leave the mover in check. -/
def Board.generateLegalMoves (b : Board) (c : Color) : List Move :=
  (pseudoMoves b c).filter (fun m => !(b.applyMove m false).isInCheck c)

/- ------------------------------------------------------------------ -/
/- FEN codec and string helpers (strings modelled as lists of chars). -/
/- ------------------------------------------------------------------ -/

/-- `str.strip()`: drop whitespace from both ends. -/
def pyStrip (s : List Char) : List Char :=
  ((s.dropWhile Char.isWhitespace).reverse.dropWhile Char.isWhitespace).reverse

/-- Split a character list at every separator matched by `p`, keeping
empty pieces (the semantics of Python's `str.split(sep)` for a one-char
separator, and the first stage of no-argument `str.split()`). -/
def splitOnPred (p : Char → Bool) : List Char → List (List Char)
  | [] => [[]]
  | ch :: rest =>
    if p ch then [] :: splitOnPred p rest
    else
      match splitOnPred p rest with
      | [] => [[ch]]
      | cur :: out => (ch :: cur) :: out

/-- `str.split(sep)` for a single-character separator. -/
def pySplit (sep : Char) (s : List Char) : List (List Char) :=
  splitOnPred (fun ch => decide (ch = sep)) s

/-- No-argument `str.split()`: split on whitespace runs, dropping empties. -/
def pySplitWs (s : List Char) : List (List Char) :=
  (splitOnPred Char.isWhitespace s).filter (fun w => !w.isEmpty)

/-- Parse one FEN board row: a digit expands to that many empty cells, any
other character is a piece symbol.  (Digits are the ASCII digits; the
program only ever feeds its own ASCII output back in.) -/
def parseRowAux : List Char → List (Option Piece)
  | [] => []
  | ch :: rest =>
    if ch.isDigit then List.replicate (ch.toNat - 48) none ++ parseRowAux rest
    else some ch :: parseRowAux rest

/-- `from_fen(text)`: split into fields, require at least two, split the
board field on '/', require 8 rows of 8 parsed cells; the side to move is
white exactly when the second field is "w" and black otherwise. -/
def fromFen (s : List Char) : Option Board :=
  let parts := pySplitWs (pyStrip s)
  if parts.length < 2 then none
  else
    let boardPart := parts.getD 0 []
    let turnPart := parts.getD 1 []
    let rows := pySplit '/' boardPart
    if rows.length = 8 then
      let grid := rows.map parseRowAux
      if grid.all (fun row => decide (row.length = 8)) then
        some (Board.mk grid (if turnPart = ['w'] then Color.white else Color.black))
      else none
    else none

/-- Render one board row for `to_fen`: runs of empty cells are flushed as
their decimal length (Python `str(empty)`). -/
def renderRowAux : List (Option Piece) → ℕ → List Char
  | [], e => if e = 0 then [] else Nat.toDigits 10 e
  | none :: rest, e => renderRowAux rest (e + 1)
  | some p :: rest, e => (if e = 0 then [] else Nat.toDigits 10 e) ++ p :: renderRowAux rest 0

/-- `sep.join(rows)` for a one-character separator. -/
def joinWith (sep : Char) : List (List Char) → List Char
  | [] => []
  | [r] => r
  | r :: rest => r ++ sep :: joinWith sep rest

/-- `to_fen()`: the 8 rendered rows joined with '/', a space, and the side
to move letter. -/
def Board.toFen (b : Board) : List Char :=
  let rows := (List.range 8).map (fun r => renderRowAux (b.grid.getD r []) 0)
  joinWith '/' rows ++ ' ' :: [if b.turn = Color.white then 'w' else 'b']

/-- The FEN text of the standard starting position used by `start_position`. -/
def startFen : List Char := "rnbqkbnr/pppppppp/8/8/8/8/PPPPPPPP/RNBQKBNR w".data

/-- `start_position()`: parse the fixed starting FEN (which succeeds). -/
def startPosition : Board := (fromFen startFen).getD (Board.mk [] Color.white)

/- ------------------------------------------------------------------ -/
/- Move text codec.                                                   -/
/- ------------------------------------------------------------------ -/

/-- `str_to_square`: exactly two characters, a file letter a-h and a rank
digit 1-8; returns (8 - rank, file - 'a'). -/
def strToSquare (s : List Char) : Option Square :=
  match s with
  | [f, r] =>
    if f ∈ "abcdefgh".data ∧ r ∈ "12345678".data then
      some ((8 - ((r.toNat : ℤ) - 48), ((f.toNat : ℤ) - 97)))
    else none
  | _ => none

/-- `Move.from_long_algebraic`: strip, require length 4 or 5, parse the two
square tokens, and for length 5 require an upper-cased promotion letter in
{Q,R,B,N} (stored upper-cased). -/
def fromLongAlgebraic (s : List Char) : Option Move :=
  let t := pyStrip s
  if t.length = 4 ∨ t.length = 5 then
    match strToSquare (t.take 2), strToSquare ((t.drop 2).take 2) with
    | some fsq, some tsq =>
      if t.length = 5 then
        let pc := (t.getD 4 ' ').toUpper
        if pc ∈ promoChoices then some (Move.mk fsq tsq (some pc)) else none
      else some (Move.mk fsq tsq none)
    | _, _ => none
  else none

/- ------------------------------------------------------------------ -/
/- Evaluator and search engine.                                       -/
/- ------------------------------------------------------------------ -/

/-- Scores: the float scores of the source are exact rationals here (all
material values are quarter-integers), extended with a bottom element for
`float("-inf")` and a top element for `float("inf")`. -/
abbrev Score := WithBot (WithTop ℚ)

/-- Embed a finite score. -/
def Score.ofQ (q : ℚ) : Score := ((q : WithTop ℚ) : WithBot (WithTop ℚ))

/-- `PIECE_VALUES.get(piece.upper(), 0.0)`. -/
def pieceValue (p : Char) : ℚ :=
  let u := p.toUpper
  if u = 'P' then 1
  else if u = 'N' then 3
  else if u = 'B' then 13 / 4
  else if u = 'R' then 5
  else if u = 'Q' then 9
  else if u = 'K' then 0
  else 0

/-- `evaluate_board`: signed material sum over the 64 cells, positive for
White (upper-case) pieces, negative otherwise. -/
def evaluateBoard (b : Board) : ℚ :=
  (List.range 8).foldl (fun acc r =>
    (List.range 8).foldl (fun acc2 c =>
      match cellGet b.grid r c with
      | none => acc2
      | some p => if p.isUpper then acc2 + pieceValue p else acc2 - pieceValue p) acc) 0

/-- The mate score magnitude (10_000.0). -/
def mateScoreQ : ℚ := 10000

/-- The maximizing player's loop in `minimax`: for each move, search the
child with the current window, raise `value` and `alpha`, and break (beta
cut-off) as soon as `alpha >= beta`. -/
def abMaxLoop (rec : Score → Score → Board → Score) (b : Board) (beta : Score) :
    Score → Score → List Move → Score
  | value, _, [] => value
  | value, alpha, m :: rest =>
    let v := rec alpha beta (b.applyMove m true)
    let value2 := max value v
    let alpha2 := max alpha value2
    if beta ≤ alpha2 then value2 else abMaxLoop rec b beta value2 alpha2 rest

/-- The minimizing player's loop in `minimax`: lower `value` and `beta`,
and break (alpha cut-off) as soon as `beta <= alpha`. -/
def abMinLoop (rec : Score → Score → Board → Score) (b : Board) (alpha : Score) :
    Score → Score → List Move → Score
  | value, _, [] => value
  | value, beta, m :: rest =>
    let v := rec alpha beta (b.applyMove m true)
    let value2 := min value v
    let beta2 := min beta value2
    if beta2 ≤ alpha then value2 else abMinLoop rec b alpha value2 beta2 rest

/-- `minimax(board, depth, alpha, beta, maximizing_color)`: at depth 0 the
evaluator's score, sign-flipped when the maximizing color is Black; with
no legal moves a mate score (relative to the maximizing color) or 0; else
the pruned max/min loop over the children, starting from -inf / +inf. -/
def minimax (b : Board) (depth : ℕ) (alpha beta : Score) (mc : Color) : Score :=
  match depth with
  | 0 => Score.ofQ (if mc = Color.white then evaluateBoard b else -evaluateBoard b)
  | d + 1 =>
    let side := b.turn
    let moves := b.generateLegalMoves side
    if moves.isEmpty then
      if b.isInCheck side then
        Score.ofQ (if side = mc then -mateScoreQ else mateScoreQ)
      else Score.ofQ 0
    else if side = mc then
      abMaxLoop (fun a bt b2 => minimax b2 d a bt mc) b beta ⊥ alpha moves
    else
      abMinLoop (fun a bt b2 => minimax b2 d a bt mc) b alpha ⊤ beta moves

/-- Modelled from the spec: the unpruned full minimax over the same game
tree with the same maximizing color ("the score from an unpruned full
minimax over the same tree") — identical terminal cases, and plain
max/min folds over all children with no alpha/beta window. -/
def fullMinimax (b : Board) (depth : ℕ) (mc : Color) : Score :=
  match depth with
  | 0 => Score.ofQ (if mc = Color.white then evaluateBoard b else -evaluateBoard b)
  | d + 1 =>
    let side := b.turn
    let moves := b.generateLegalMoves side
    if moves.isEmpty then
      if b.isInCheck side then
        Score.ofQ (if side = mc then -mateScoreQ else mateScoreQ)
      else Score.ofQ 0
    else if side = mc then
      moves.foldl (fun acc m => max acc (fullMinimax (b.applyMove m true) d mc)) ⊥
    else
      moves.foldl (fun acc m => min acc (fullMinimax (b.applyMove m true) d mc)) ⊤

/-- `SearchResult`: optional best move and its score. -/
structure SearchResult where
  move : Option Move
  score : Score
deriving DecidableEq

/-- The selection loop of `find_best_move`: score each candidate through
`minimax` with maximizing color = side to move and a full window, keeping
a strictly better score (`>` for White, `<` for Black). -/
def fbmLoop (b : Board) (d : ℕ) (side : Color) :
    Option Move → Score → List Move → Option Move × Score
  | best, bestScore, [] => (best, bestScore)
  | best, bestScore, m :: rest =>
    let s := minimax (b.applyMove m true) d ⊥ ⊤ side
    if side = Color.white then
      if bestScore < s then fbmLoop b d side (some m) s rest
      else fbmLoop b d side best bestScore rest
    else
      if s < bestScore then fbmLoop b d side (some m) s rest
      else fbmLoop b d side best bestScore rest

/-- `find_best_move(board, max_depth)`: with no legal moves, no move and
the White-relative terminal score; otherwise run the selection loop
(children searched at depth `max_depth - 1`).  Depth is a natural number
here; the program always calls this with `max_depth ≥ 1`. -/
def findBestMove (b : Board) (maxDepth : ℕ) : SearchResult :=
  let side := b.turn
  let moves := b.generateLegalMoves side
  if moves.isEmpty then
    if b.isInCheck side then
      SearchResult.mk none (Score.ofQ (if side = Color.white then -mateScoreQ else mateScoreQ))
    else SearchResult.mk none (Score.ofQ 0)
  else
    let r := fbmLoop b (maxDepth - 1) side none (if side = Color.white then ⊥ else ⊤) moves
    SearchResult.mk r.1 r.2

/- ------------------------------------------------------------------ -/
/- Auxiliary definitions used by the verification.                    -/
/- ------------------------------------------------------------------ -/

/-- The twelve piece symbols of chess. -/
def validPieceChar (p : Char) : Bool :=
  p ∈ ['P', 'N', 'B', 'R', 'Q', 'K', 'p', 'n', 'b', 'r', 'q', 'k']

/-- A cell is empty or holds a piece symbol. -/
def validCellOpt : Option Piece → Bool
  | none => true
  | some p => validPieceChar p

/-- A promotion field is absent or a piece symbol. -/
def validPromoOpt : Option Piece → Bool
  | none => true
  | some p => validPieceChar p

/-- A well-formed board row: 8 cells, each empty or a piece symbol. -/
def goodRow (row : List (Option Piece)) : Bool :=
  decide (row.length = 8) && row.all validCellOpt

/-- A well-formed board: 8 well-formed rows. -/
def goodBoard (b : Board) : Bool :=
  decide (b.grid.length = 8) && b.grid.all goodRow

/-- The positions reachable by legal play from the start position: the
start position itself, and the result of applying any generated legal
move (with the turn switched) to a reachable position. -/
inductive Reachable : Board → Prop where
  | start : Reachable startPosition
  | step (b : Board) (m : Move) : Reachable b → m ∈ b.generateLegalMoves b.turn →
      Reachable (b.applyMove m true)

/-- A board with no pieces at all (used as a concrete no-legal-move and
no-king position). -/
def emptyBoard : Board := Board.mk (List.replicate 8 (List.replicate 8 none)) Color.white

/-- Black to move; the rook on d8 can capture the white queen on d1. -/
def bugBoard : Board :=
  (fromFen ("k2r4/8/8/8/8/8/8/3Q4 b".data)).getD (Board.mk [] Color.white)

/- ------------------------------------------------------------------ -/
/- Theorems.                                                          -/
/- ------------------------------------------------------------------ -/

/-- C4: whenever the side to move has zero legal moves, `find_best_move`
returns a SearchResult with no move whose score, relative to White, is
-10000 when the side to move is White and in check, +10000 when it is
Black and in check, and 0 otherwise (stalemate). -/
theorem findBestMove_no_moves (b : Board) (d : ℕ)
    (h : b.generateLegalMoves b.turn = []) :
    findBestMove b d = SearchResult.mk none
      (if b.isInCheck b.turn then
        (if b.turn = Color.white then Score.ofQ (-10000) else Score.ofQ 10000)
       else Score.ofQ 0) := by
  unfold findBestMove
  simp only [h, List.isEmpty_nil, if_true]
  cases hc : b.isInCheck b.turn with
  | false => simp [hc]
  | true =>
    simp only [hc, if_true]
    by_cases ht : b.turn = Color.white <;> simp [ht, mateScoreQ]

/-- Witness for C4: the empty board (no pieces at all) has no legal moves,
its missing king counts as "in check", and White to move yields -10000. -/
theorem findBestMove_no_moves_witness :
    emptyBoard.generateLegalMoves emptyBoard.turn = []
    ∧ findBestMove emptyBoard 3 = SearchResult.mk none
        (if emptyBoard.isInCheck emptyBoard.turn then
          (if emptyBoard.turn = Color.white then Score.ofQ (-10000) else Score.ofQ 10000)
         else Score.ofQ 0) :=
  ⟨by decide, findBestMove_no_moves emptyBoard 3 (by decide)⟩

/-- C5: `is_in_check(position, color)` is true exactly when no king of the
color exists on the board, or some pseudo-legal move of the opposite color
(no legality filtering) has the defender's king square as destination. -/
theorem isInCheck_iff (b : Board) (c : Color) :
    b.isInCheck c = true ↔
      b.findKing c = none ∨
        ∃ ksq, b.findKing c = some ksq ∧ ∃ m ∈ pseudoMoves b c.opposite, m.to_sq = ksq := by
  unfold Board.isInCheck
  cases hk : b.findKing c with
  | none => simp
  | some ksq => simp [List.any_eq_true]

/-- C9: every move successfully parsed by `from_long_algebraic` has a
promotion field that is absent or an upper-case letter in {Q,R,B,N}; the
parser upper-cases the fifth character before storing it. -/
theorem fromLongAlgebraic_promo_upper (s : List Char) (m : Move)
    (h : fromLongAlgebraic s = some m) :
    m.promo = none ∨ m.promo ∈ [some 'Q', some 'R', some 'B', some 'N'] := by
  simp only [fromLongAlgebraic] at h
  split at h
  · split at h
    · split at h
      · split at h
        · cases h
          right
          rename_i hmem
          simp only [promoChoices, List.mem_cons, List.not_mem_nil, or_false] at hmem
          rcases hmem with h1 | h1 | h1 | h1 <;>
            simp only [List.getD_eq_getElem?_getD] at h1 <;> simp [h1]
        · exact absurd h (by simp)
      · cases h
        left
        rfl
    · exact absurd h (by simp)
  · exact absurd h (by simp)

/-- Witness for C9: parsing "e7e8q" succeeds with the promotion letter
normalized to upper case. -/
theorem fromLongAlgebraic_promo_upper_witness :
    fromLongAlgebraic ("e7e8q".data) = some (Move.mk (1, 4) (0, 4) (some 'Q'))
    ∧ ((Move.mk (1, 4) (0, 4) (some 'Q')).promo = none
        ∨ (Move.mk (1, 4) (0, 4) (some 'Q')).promo
            ∈ [some 'Q', some 'R', some 'B', some 'N']) :=
  ⟨by decide, fromLongAlgebraic_promo_upper ("e7e8q".data) _ (by decide)⟩

/-- C10: when the board field parses (8 rows of 8 cells) and at least two
fields are present, `from_fen` succeeds, with side to move White exactly
when the second field is "w" and Black for every other token. -/
theorem fromFen_side_to_move (s : List Char)
    (h2 : 2 ≤ (pySplitWs (pyStrip s)).length)
    (hrows : (pySplit '/' ((pySplitWs (pyStrip s)).getD 0 [])).length = 8)
    (hcells : ((pySplit '/' ((pySplitWs (pyStrip s)).getD 0 [])).map parseRowAux).all
        (fun row => decide (row.length = 8)) = true) :
    fromFen s = some (Board.mk
      ((pySplit '/' ((pySplitWs (pyStrip s)).getD 0 [])).map parseRowAux)
      (if (pySplitWs (pyStrip s)).getD 1 [] = ['w'] then Color.white else Color.black)) := by
  unfold fromFen
  have hne : ¬ (pySplitWs (pyStrip s)).length < 2 := by omega
  simp only [hne, if_false, hrows, if_true, hcells]

/-- Witness for C10: a FEN with the unrecognized side token "x" parses to
an empty board with Black to move. -/
theorem fromFen_side_to_move_witness :
    2 ≤ (pySplitWs (pyStrip ("8/8/8/8/8/8/8/8 x".data))).length
    ∧ fromFen ("8/8/8/8/8/8/8/8 x".data) = some (Board.mk
        ((pySplit '/' ((pySplitWs (pyStrip ("8/8/8/8/8/8/8/8 x".data))).getD 0 [])).map
          parseRowAux)
        (if (pySplitWs (pyStrip ("8/8/8/8/8/8/8/8 x".data))).getD 1 [] = ['w'] then
          Color.white else Color.black)) :=
  ⟨by decide, fromFen_side_to_move ("8/8/8/8/8/8/8/8 x".data) (by decide) (by decide) (by decide)⟩

/-- C7 (code bug): on the position "k2r4/8/8/8/8/8/8/3Q4 b" at max_depth 1,
`find_best_move` returns the king move a8b8 with score -4, although the
rook capture d8d1 of the white queen is legal and has a strictly smaller
White-relative child value (-5 < 4): the selection loop minimizes the
Black-relative score returned by `minimax(maximizing_color = black)`,
which picks the move that is worst, not best, for Black. -/
theorem findBestMove_black_picks_worst :
    bugBoard.turn = Color.black
    ∧ findBestMove bugBoard 1
        = SearchResult.mk (some (Move.mk (0, 0) (0, 1) none)) (Score.ofQ (-4))
    ∧ Move.mk (0, 3) (7, 3) none ∈ bugBoard.generateLegalMoves bugBoard.turn
    ∧ fullMinimax (bugBoard.applyMove (Move.mk (0, 3) (7, 3) none) true) 0 Color.white
        < fullMinimax (bugBoard.applyMove (Move.mk (0, 0) (0, 1) none) true) 0 Color.white := by
  with_unfolding_all decide

/-- Counterexample for C2 as stated, at two explicit inputs.  First, for
the on-board move a8a8 (origin = destination) applied to the start
position, the origin cell is not cleared — it still holds the rook —
contradicting "the origin cell is empty ... for every Move whose squares
are on the board".  Second, for the on-board move e2e3 with stored
promotion 'q' applied to the start position, the moving piece is the
white pawn 'P', yet the destination receives the stored symbol 'q'
verbatim and not the color-case-matched 'Q' the claim promises. -/
theorem applyMove_origin_not_cleared :
    (isOnBoard ((0, 0) : Square) = true
      ∧ (startPosition.applyMove (Move.mk (0, 0) (0, 0) none) true).pieceAt (0, 0)
          = some 'r')
    ∧ (isOnBoard ((6, 4) : Square) = true
      ∧ isOnBoard ((5, 4) : Square) = true
      ∧ ((6, 4) : Square) ≠ ((5, 4) : Square)
      ∧ startPosition.pieceAt (6, 4) = some 'P'
      ∧ ('P' : Char).isUpper = true
      ∧ (startPosition.applyMove (Move.mk (6, 4) (5, 4) (some 'q')) true).pieceAt (5, 4)
          = some 'q'
      ∧ (some 'q' : Option Piece) ≠ some 'Q') := by
  decide

/-- Filtering the four white promotion moves by destination keeps all of
them or none of them. -/
theorem filter_promoMapW (sq tgt t : Square) :
    (promoChoices.map (fun p => Move.mk sq tgt (some p))).filter
        (fun m => decide (m.to_sq = t))
      = if tgt = t then promoChoices.map (fun p => Move.mk sq t (some p)) else [] := by
  by_cases h : tgt = t
  · subst h
    simp [promoChoices]
  · simp [promoChoices, h]

/-- Filtering the four black promotion moves by destination keeps all of
them or none of them. -/
theorem filter_promoMapB (sq tgt t : Square) :
    (promoChoices.map (fun p => Move.mk sq tgt (some p.toLower))).filter
        (fun m => decide (m.to_sq = t))
      = if tgt = t then promoChoices.map (fun p => Move.mk sq t (some p.toLower))
        else [] := by
  by_cases h : tgt = t
  · subst h
    simp [promoChoices]
  · simp [promoChoices, h]

/-- Every white pawn pseudo-move goes one row up, or two rows up from the
start row. -/
theorem mem_pawnMoves_white_row (b : Board) (sq : Square) (m : Move)
    (hm : m ∈ pawnMoves b sq Color.white) :
    m.to_sq.1 = sq.1 + -1 ∨ (m.to_sq.1 = sq.1 + 2 * -1 ∧ sq.1 = 6) := by
  simp only [pawnMoves, reduceIte, List.flatMap_cons, List.flatMap_nil,
    List.append_nil] at hm
  rcases List.mem_append.mp hm with h | h
  · split at h
    · rcases List.mem_append.mp h with h2 | h2
      · split at h2
        · simp only [List.mem_map] at h2
          obtain ⟨p, _, hp⟩ := h2
          rw [← hp]
          left
          rfl
        · simp only [List.mem_singleton] at h2
          rw [h2]
          left
          rfl
      · split at h2
        · rename_i hcond
          simp only [List.mem_singleton] at h2
          rw [h2]
          right
          refine ⟨rfl, ?_⟩
          simp only [Bool.and_eq_true, decide_eq_true_eq] at hcond
          exact hcond.1.1
        · simp at h2
    · simp at h
  · rcases List.mem_append.mp h with h2 | h2 <;>
    · split at h2
      · split at h2
        · simp at h2
        · split at h2
          · split at h2
            · simp only [List.mem_map] at h2
              obtain ⟨p, _, hp⟩ := h2
              rw [← hp]
              left
              rfl
            · simp only [List.mem_singleton] at h2
              rw [h2]
              left
              rfl
          · simp at h2
      · simp at h2

/-- Every black pawn pseudo-move goes one row down, or two rows down from
the start row. -/
theorem mem_pawnMoves_black_row (b : Board) (sq : Square) (m : Move)
    (hm : m ∈ pawnMoves b sq Color.black) :
    m.to_sq.1 = sq.1 + 1 ∨ (m.to_sq.1 = sq.1 + 2 * 1 ∧ sq.1 = 1) := by
  have hbw : (Color.black = Color.white) = False := by simp
  simp only [pawnMoves, hbw, reduceIte, if_false, List.flatMap_cons, List.flatMap_nil,
    List.append_nil] at hm
  rcases List.mem_append.mp hm with h | h
  · split at h
    · rcases List.mem_append.mp h with h2 | h2
      · split at h2
        · simp only [List.mem_map] at h2
          obtain ⟨p, _, hp⟩ := h2
          rw [← hp]
          left
          rfl
        · simp only [List.mem_singleton] at h2
          rw [h2]
          left
          rfl
      · split at h2
        · rename_i hcond
          simp only [List.mem_singleton] at h2
          rw [h2]
          right
          refine ⟨rfl, ?_⟩
          simp only [Bool.and_eq_true, decide_eq_true_eq] at hcond
          exact hcond.1.1
        · simp at h2
    · simp at h
  · rcases List.mem_append.mp h with h2 | h2 <;>
    · split at h2
      · split at h2
        · simp at h2
        · split at h2
          · split at h2
            · simp only [List.mem_map] at h2
              obtain ⟨p, _, hp⟩ := h2
              rw [← hp]
              left
              rfl
            · simp only [List.mem_singleton] at h2
              rw [h2]
              left
              rfl
          · simp at h2
      · simp at h2

/-- White instance of the far-rank filter characterization. -/
theorem pawnMoves_far_rank_white (b : Board) (sq : Square) (t : Square)
    (ht : t.1 = 0) :
    (pawnMoves b sq Color.white).filter (fun m => decide (m.to_sq = t)) = []
    ∨ (pawnMoves b sq Color.white).filter (fun m => decide (m.to_sq = t)) =
        promoChoices.map (fun p => Move.mk sq t (some p)) := by
  obtain ⟨t1, t2⟩ := t
  simp only at ht
  subst ht
  by_cases hpr : sq.1 + -1 = 0
  · obtain ⟨s1, s2⟩ := sq
    simp only at hpr
    simp only [pawnMoves, reduceIte, List.filter_append, List.flatMap_cons,
      List.flatMap_nil, List.append_nil, hpr, reduceIte]
    have hd6 : decide (s1 = 6) = false := decide_eq_false (by omega)
    simp only [hd6, Bool.false_and, Bool.false_eq_true, if_false]
    rcases hB : b.pieceAt (0, s2 + -1) with _ | pB <;>
      rcases hC : b.pieceAt (0, s2 + 1) with _ | pC <;>
        simp only [hB, hC] <;>
          split_ifs <;>
            simp only [filter_promoMapW, List.filter_nil, List.nil_append,
              List.append_nil, Prod.mk.injEq] <;>
              (try split_ifs) <;>
                first
                  | omega
                  | (left; trivial)
                  | (right; trivial)
  · left
    rw [List.filter_eq_nil_iff]
    intro m hm
    have hrow := mem_pawnMoves_white_row b sq m hm
    simp only [decide_eq_true_eq]
    intro hh
    rcases hrow with h | ⟨h, h6⟩ <;> (rw [hh] at h; simp only at h; omega)

/-- Black instance of the far-rank filter characterization. -/
theorem pawnMoves_far_rank_black (b : Board) (sq : Square) (t : Square)
    (ht : t.1 = 7) :
    (pawnMoves b sq Color.black).filter (fun m => decide (m.to_sq = t)) = []
    ∨ (pawnMoves b sq Color.black).filter (fun m => decide (m.to_sq = t)) =
        promoChoices.map (fun p => Move.mk sq t (some p.toLower)) := by
  obtain ⟨t1, t2⟩ := t
  simp only at ht
  subst ht
  have hbw : (Color.black = Color.white) = False := by simp
  by_cases hpr : sq.1 + 1 = 7
  · obtain ⟨s1, s2⟩ := sq
    simp only at hpr
    simp only [pawnMoves, hbw, reduceIte, if_false, List.filter_append, List.flatMap_cons,
      List.flatMap_nil, List.append_nil, hpr, reduceIte]
    have hd1 : decide (s1 = 1) = false := decide_eq_false (by omega)
    simp only [hd1, Bool.false_and, Bool.false_eq_true, if_false]
    rcases hB : b.pieceAt (7, s2 + -1) with _ | pB <;>
      rcases hC : b.pieceAt (7, s2 + 1) with _ | pC <;>
        simp only [hB, hC] <;>
          split_ifs <;>
            simp only [filter_promoMapB, List.filter_nil, List.nil_append,
              List.append_nil, Prod.mk.injEq] <;>
              (try split_ifs) <;>
                first
                  | omega
                  | (left; trivial)
                  | (right; trivial)
  · left
    rw [List.filter_eq_nil_iff]
    intro m hm
    have hrow := mem_pawnMoves_black_row b sq m hm
    simp only [decide_eq_true_eq]
    intro hh
    rcases hrow with h | ⟨h, h1⟩ <;> (rw [hh] at h; simp only at h; omega)

/-- A qualifying single push onto the promotion rank really is generated:
when `t` is the square one step forward of `sq`, on the board and empty,
the queen-promotion push is among the pawn pseudo-moves. -/
theorem pawnMoves_mem_push (b : Board) (sq : Square) (c : Color) (t : Square)
    (hteq : t = (sq.1 + (if c = Color.white then -1 else 1), sq.2))
    (hob : isOnBoard t = true) (hempty : b.pieceAt t = none)
    (ht : t.1 = (if c = Color.white then 0 else 7)) :
    Move.mk sq t (some (if c = Color.white then 'Q' else ('Q').toLower))
      ∈ pawnMoves b sq c := by
  cases c
  · simp only [reduceIte] at hteq ht ⊢
    subst hteq
    simp only at ht
    simp only [pawnMoves, reduceIte]
    apply List.mem_append_left
    rw [if_pos (by simp [hob, hempty])]
    apply List.mem_append_left
    rw [if_pos ht]
    exact List.mem_map.mpr ⟨'Q', by simp [promoChoices], rfl⟩
  · have hbw : (Color.black = Color.white) = False := by simp
    simp only [hbw, if_false] at hteq ht ⊢
    subst hteq
    simp only at ht
    simp only [pawnMoves, hbw, if_false]
    apply List.mem_append_left
    rw [if_pos (by simp [hob, hempty])]
    apply List.mem_append_left
    rw [if_pos ht]
    exact List.mem_map.mpr ⟨'Q', by simp [promoChoices], rfl⟩

/-- A qualifying capture onto the promotion rank really is generated:
when `t` is one step forward and one file to the side of `sq`, on the
board and occupied by a capturable piece, the queen-promotion capture is
among the pawn pseudo-moves. -/
theorem pawnMoves_mem_cap (b : Board) (sq : Square) (c : Color) (t : Square)
    (dc : ℤ) (hdc : dc = -1 ∨ dc = 1)
    (hteq : t = (sq.1 + (if c = Color.white then -1 else 1), sq.2 + dc))
    (hob : isOnBoard t = true) (tp : Piece) (hocc : b.pieceAt t = some tp)
    (hcap : capturable c tp = true)
    (ht : t.1 = (if c = Color.white then 0 else 7)) :
    Move.mk sq t (some (if c = Color.white then 'Q' else ('Q').toLower))
      ∈ pawnMoves b sq c := by
  cases c
  · simp only [reduceIte] at hteq ht ⊢
    subst hteq
    simp only at ht
    simp only [pawnMoves, reduceIte]
    apply List.mem_append_right
    simp only [List.flatMap_cons, List.flatMap_nil, List.append_nil]
    rcases hdc with rfl | rfl
    · apply List.mem_append_left
      rw [if_pos hob]
      simp only [hocc]
      rw [if_pos hcap, if_pos ht]
      exact List.mem_map.mpr ⟨'Q', by simp [promoChoices], rfl⟩
    · apply List.mem_append_right
      rw [if_pos hob]
      simp only [hocc]
      rw [if_pos hcap, if_pos ht]
      exact List.mem_map.mpr ⟨'Q', by simp [promoChoices], rfl⟩
  · have hbw : (Color.black = Color.white) = False := by simp
    simp only [hbw, if_false] at hteq ht ⊢
    subst hteq
    simp only at ht
    simp only [pawnMoves, hbw, if_false]
    apply List.mem_append_right
    simp only [List.flatMap_cons, List.flatMap_nil, List.append_nil]
    rcases hdc with rfl | rfl
    · apply List.mem_append_left
      rw [if_pos hob]
      simp only [hocc]
      rw [if_pos hcap, if_pos ht]
      exact List.mem_map.mpr ⟨'Q', by simp [promoChoices], rfl⟩
    · apply List.mem_append_right
      rw [if_pos hob]
      simp only [hocc]
      rw [if_pos hcap, if_pos ht]
      exact List.mem_map.mpr ⟨'Q', by simp [promoChoices], rfl⟩

/-- C6: for every position, pawn origin and color, and every square `t` on
the far rank (row 0 for White, row 7 for Black), the pawn pseudo-moves
into `t` are either none at all or exactly the four promotion moves, one
per choice in {Q,R,B,N} with the symbol case-matched to the moving side
(in particular a far-rank move is never emitted as a single plain move);
and completeness: whenever `t` qualifies as a single push (one step
forward of `sq`, on the board, empty) or as a capture (one step forward
and one file aside, on the board, holding a capturable piece), the filter
is exactly the four promotion moves — never empty. -/
theorem pawnMoves_far_rank (b : Board) (sq : Square) (c : Color) (t : Square)
    (ht : t.1 = (if c = Color.white then 0 else 7)) :
    ((pawnMoves b sq c).filter (fun m => decide (m.to_sq = t)) = []
      ∨ (pawnMoves b sq c).filter (fun m => decide (m.to_sq = t)) =
          promoChoices.map (fun p =>
            Move.mk sq t (some (if c = Color.white then p else p.toLower))))
    ∧ (∀ m ∈ pawnMoves b sq c, m.to_sq = t → m.promo ≠ none)
    ∧ (t = (sq.1 + (if c = Color.white then -1 else 1), sq.2) →
        isOnBoard t = true → b.pieceAt t = none →
        (pawnMoves b sq c).filter (fun m => decide (m.to_sq = t)) =
          promoChoices.map (fun p =>
            Move.mk sq t (some (if c = Color.white then p else p.toLower))))
    ∧ (∀ dc : ℤ, (dc = -1 ∨ dc = 1) →
        t = (sq.1 + (if c = Color.white then -1 else 1), sq.2 + dc) →
        isOnBoard t = true →
        ∀ tp, b.pieceAt t = some tp → capturable c tp = true →
        (pawnMoves b sq c).filter (fun m => decide (m.to_sq = t)) =
          promoChoices.map (fun p =>
            Move.mk sq t (some (if c = Color.white then p else p.toLower)))) := by
  have hmain : (pawnMoves b sq c).filter (fun m => decide (m.to_sq = t)) = []
      ∨ (pawnMoves b sq c).filter (fun m => decide (m.to_sq = t)) =
          promoChoices.map (fun p =>
            Move.mk sq t (some (if c = Color.white then p else p.toLower))) := by
    cases c
    · simp only [reduceIte] at ht ⊢
      exact pawnMoves_far_rank_white b sq t ht
    · have hbw : (Color.black = Color.white) = False := by simp
      simp only [hbw, if_false] at ht ⊢
      exact pawnMoves_far_rank_black b sq t ht
  have hexact : ∀ m0 ∈ pawnMoves b sq c, m0.to_sq = t →
      (pawnMoves b sq c).filter (fun m => decide (m.to_sq = t)) =
        promoChoices.map (fun p =>
          Move.mk sq t (some (if c = Color.white then p else p.toLower))) := by
    intro m0 hm0 hm0t
    rcases hmain with h | h
    · exfalso
      have hmem : m0 ∈ (pawnMoves b sq c).filter (fun m => decide (m.to_sq = t)) :=
        List.mem_filter.mpr ⟨hm0, by simp [hm0t]⟩
      rw [h] at hmem
      simp at hmem
    · exact h
  refine ⟨hmain, ?_, ?_, ?_⟩
  · intro m hm hmt
    have hmem : m ∈ (pawnMoves b sq c).filter (fun m => decide (m.to_sq = t)) :=
      List.mem_filter.mpr ⟨hm, by simp [hmt]⟩
    rcases hmain with h | h
    · rw [h] at hmem
      simp at hmem
    · rw [h] at hmem
      simp only [List.mem_map] at hmem
      obtain ⟨p, _, hp⟩ := hmem
      rw [← hp]
      simp
  · intro hteq hob hempty
    exact hexact _ (pawnMoves_mem_push b sq c t hteq hob hempty ht) rfl
  · intro dc hdc hteq hob tp hocc hcap
    exact hexact _ (pawnMoves_mem_cap b sq c t dc hdc hteq hob tp hocc hcap ht) rfl

/-- Witness for C6: a white pawn on a7 of the empty board, with target a8,
satisfies the full conclusion — in particular the qualifying push (a8 is
on the board and empty) yields exactly the four promotion moves. -/
theorem pawnMoves_far_rank_witness :
    (((0 : ℤ), (0 : ℤ)) : Square).1 = (if Color.white = Color.white then 0 else 7)
    ∧ (((pawnMoves emptyBoard (1, 0) Color.white).filter
          (fun m => decide (m.to_sq = ((0, 0) : Square))) = []
        ∨ (pawnMoves emptyBoard (1, 0) Color.white).filter
            (fun m => decide (m.to_sq = ((0, 0) : Square))) =
            promoChoices.map (fun p =>
              Move.mk (1, 0) (0, 0)
                (some (if Color.white = Color.white then p else p.toLower))))
      ∧ (∀ m ∈ pawnMoves emptyBoard (1, 0) Color.white,
          m.to_sq = ((0, 0) : Square) → m.promo ≠ none)
      ∧ (((0, 0) : Square) =
            ((((1 : ℤ), (0 : ℤ)) : Square).1 + (if Color.white = Color.white then -1 else 1),
             (((1 : ℤ), (0 : ℤ)) : Square).2) →
          isOnBoard ((0, 0) : Square) = true →
          emptyBoard.pieceAt ((0, 0) : Square) = none →
          (pawnMoves emptyBoard (1, 0) Color.white).filter
              (fun m => decide (m.to_sq = ((0, 0) : Square))) =
            promoChoices.map (fun p =>
              Move.mk (1, 0) (0, 0)
                (some (if Color.white = Color.white then p else p.toLower))))
      ∧ (∀ dc : ℤ, (dc = -1 ∨ dc = 1) →
          ((0, 0) : Square) =
            ((((1 : ℤ), (0 : ℤ)) : Square).1 + (if Color.white = Color.white then -1 else 1),
             (((1 : ℤ), (0 : ℤ)) : Square).2 + dc) →
          isOnBoard ((0, 0) : Square) = true →
          ∀ tp, emptyBoard.pieceAt ((0, 0) : Square) = some tp →
            capturable Color.white tp = true →
          (pawnMoves emptyBoard (1, 0) Color.white).filter
              (fun m => decide (m.to_sq = ((0, 0) : Square))) =
            promoChoices.map (fun p =>
              Move.mk (1, 0) (0, 0)
                (some (if Color.white = Color.white then p else p.toLower))))) :=
  ⟨by decide, pawnMoves_far_rank emptyBoard (1, 0) Color.white (0, 0) (by decide)⟩

theorem score_max_distrib (a x y : Score) : max a (max x y) = max (max a x) (max a y) := by
  refine le_antisymm ?_ ?_ <;>
      simp only [max_le_iff] <;>
      simp only [le_max_iff, le_refl, true_or, or_true, true_and, and_true] <;>
      itauto

theorem score_min_distrib (a x y : Score) : min a (min x y) = min (min a x) (min a y) := by
  refine le_antisymm ?_ ?_ <;>
      simp only [le_min_iff] <;>
      simp only [min_le_iff, le_refl, true_or, or_true, true_and, and_true] <;>
      itauto

theorem score_clip_comm (a bt x : Score) (h : a ≤ bt) :
    max a (min bt x) = min bt (max a x) := by
  rw [max_min_distrib_left, max_eq_right h]

theorem foldl_max_init (g : Move → Score) (l : List Move) :
    ∀ v : Score, l.foldl (fun acc mv => max acc (g mv)) v
      = max v (l.foldl (fun acc mv => max acc (g mv)) ⊥) := by
  induction l with
  | nil => intro v; simp
  | cons m rest ih =>
    intro v
    simp only [List.foldl_cons]
    rw [ih (max v (g m)), ih (max ⊥ (g m)), max_eq_right (bot_le : (⊥ : Score) ≤ g m),
      max_assoc]

theorem foldl_min_init (g : Move → Score) (l : List Move) :
    ∀ v : Score, l.foldl (fun acc mv => min acc (g mv)) v
      = min v (l.foldl (fun acc mv => min acc (g mv)) ⊤) := by
  induction l with
  | nil => intro v; simp
  | cons m rest ih =>
    intro v
    simp only [List.foldl_cons]
    rw [ih (min v (g m)), ih (min ⊤ (g m)), min_eq_right (le_top : g m ≤ (⊤ : Score)),
      min_assoc]

theorem abMaxLoop_ge (rec : Score → Score → Board → Score) (b : Board) (beta : Score) :
    ∀ (moves : List Move) (value alpha : Score),
      value ≤ abMaxLoop rec b beta value alpha moves := by
  intro moves
  induction moves with
  | nil => intro v a; simp [abMaxLoop]
  | cons m rest ih =>
    intro v a
    simp only [abMaxLoop]
    split
    · exact le_max_left _ _
    · exact le_trans (le_max_left _ _) (ih _ _)

theorem abMinLoop_le (rec : Score → Score → Board → Score) (b : Board) (alpha : Score) :
    ∀ (moves : List Move) (value beta : Score),
      abMinLoop rec b alpha value beta moves ≤ value := by
  intro moves
  induction moves with
  | nil => intro v a; simp [abMinLoop]
  | cons m rest ih =>
    intro v a
    simp only [abMinLoop]
    split
    · exact min_le_left _ _
    · exact le_trans (ih _ _) (min_le_left _ _)

theorem abMaxLoop_clip (F : Board → Score) (rec : Score → Score → Board → Score)
    (b : Board) (beta : Score)
    (hrec : ∀ a bt b2, a < bt → min bt (max a (F b2)) = min bt (max a (rec a bt b2))) :
    ∀ (moves : List Move) (value alpha : Score), value ≤ alpha → alpha < beta →
      min beta (max alpha
          (moves.foldl (fun acc mv => max acc (F (b.applyMove mv true))) value))
        = min beta (max alpha (abMaxLoop rec b beta value alpha moves)) := by
  intro moves
  induction moves with
  | nil => intro value alpha _ _; simp [abMaxLoop]
  | cons m rest ih =>
    intro value alpha hva hab
    simp only [List.foldl_cons, abMaxLoop]
    by_cases hcut : beta ≤ max alpha (max value (rec alpha beta (b.applyMove m true)))
    · rw [if_pos hcut]
      set c := b.applyMove m true with hc
      set v := rec alpha beta c with hv
      have hvb : beta ≤ v := by
        by_contra hlt
        push_neg at hlt
        exact absurd hcut
          (not_le.mpr (max_lt hab (max_lt (lt_of_le_of_lt hva hab) hlt)))
      have hrecv : min beta (max alpha (F c)) = beta := by
        rw [hrec alpha beta c hab, max_eq_right ((le_of_lt hab).trans hvb),
          min_eq_left hvb]
      have hFc : beta ≤ F c := by
        by_contra hlt
        push_neg at hlt
        have hm2 : max alpha (F c) < beta := max_lt hab hlt
        rw [min_eq_right (le_of_lt hm2)] at hrecv
        exact absurd hrecv (ne_of_lt hm2)
      rw [max_eq_right ((hva.trans (le_of_lt hab)).trans hvb),
        max_eq_right ((le_of_lt hab).trans hvb), min_eq_left hvb]
      rw [foldl_max_init]
      refine min_eq_left (hFc.trans ?_)
      exact le_trans (le_max_right value _)
        (le_trans (le_max_left _ _) (le_max_right alpha _))
    · rw [if_neg hcut]
      set c := b.applyMove m true with hc
      set v := rec alpha beta c with hv
      have hcut2 : max alpha (max value v) < beta := not_le.mp hcut
      have ihr := ih (max value v) (max alpha (max value v)) (le_max_right _ _) hcut2
      rw [foldl_max_init] at ihr ⊢
      set M := rest.foldl (fun acc mv => max acc (F (b.applyMove mv true))) (⊥ : Score)
        with hM
      set L := abMaxLoop rec b beta (max value v) (max alpha (max value v)) rest with hL
      have hvalL : value ≤ L := le_trans (le_max_left _ _) (abMaxLoop_ge rec b beta rest _ _)
      have hvL : v ≤ L := le_trans (le_max_right _ _) (abMaxLoop_ge rec b beta rest _ _)
      have e1 : max (max alpha (max value v)) (max (max value v) M)
          = max alpha (max v M) := by
        refine le_antisymm ?_ ?_ <;>
      simp only [max_le_iff] <;>
      simp only [le_max_iff, le_refl, true_or, or_true, true_and, and_true] <;>
      itauto
      have e2 : max (max alpha (max value v)) L = max alpha L := by
        refine le_antisymm ?_ ?_ <;>
      simp only [max_le_iff] <;>
      simp only [le_max_iff, le_refl, true_or, or_true, true_and, and_true] <;>
      itauto
      rw [e1, e2] at ihr
      have habs : max alpha (max (max value (F c)) M) = max alpha (max (F c) M) := by
        refine le_antisymm ?_ ?_ <;>
      simp only [max_le_iff] <;>
      simp only [le_max_iff, le_refl, true_or, or_true, true_and, and_true] <;>
      itauto
      rw [habs, score_max_distrib, min_max_distrib_left, hrec alpha beta c hab,
        ← min_max_distrib_left, ← score_max_distrib, ihr]

theorem abMinLoop_clip (F : Board → Score) (rec : Score → Score → Board → Score)
    (b : Board) (alpha : Score)
    (hrec : ∀ a bt b2, a < bt → max a (min bt (F b2)) = max a (min bt (rec a bt b2))) :
    ∀ (moves : List Move) (value beta : Score), beta ≤ value → alpha < beta →
      max alpha (min beta
          (moves.foldl (fun acc mv => min acc (F (b.applyMove mv true))) value))
        = max alpha (min beta (abMinLoop rec b alpha value beta moves)) := by
  intro moves
  induction moves with
  | nil => intro value beta _ _; simp [abMinLoop]
  | cons m rest ih =>
    intro value beta hvb hab
    simp only [List.foldl_cons, abMinLoop]
    by_cases hcut : min beta (min value (rec alpha beta (b.applyMove m true))) ≤ alpha
    · rw [if_pos hcut]
      set c := b.applyMove m true with hc
      set v := rec alpha beta c with hv
      have hva : v ≤ alpha := by
        by_contra hlt
        push_neg at hlt
        exact absurd hcut
          (not_le.mpr (lt_min hab (lt_min (lt_of_lt_of_le hab hvb) hlt)))
      have hrecv : max alpha (min beta (F c)) = alpha := by
        rw [hrec alpha beta c hab, min_eq_right (hva.trans (le_of_lt hab)),
          max_eq_left hva]
      have hFc : F c ≤ alpha := by
        by_contra hlt
        push_neg at hlt
        have hm2 : alpha < min beta (F c) := lt_min hab hlt
        rw [max_eq_right (le_of_lt hm2)] at hrecv
        exact absurd hrecv (ne_of_gt hm2)
      rw [min_eq_right (hva.trans ((le_of_lt hab).trans hvb)),
        min_eq_right (hva.trans (le_of_lt hab)), max_eq_left hva]
      rw [foldl_min_init]
      refine max_eq_left ((min_le_right beta _).trans ?_)
      exact le_trans (min_le_left _ _) (le_trans (min_le_right value _) hFc)
    · rw [if_neg hcut]
      set c := b.applyMove m true with hc
      set v := rec alpha beta c with hv
      have hcut2 : alpha < min beta (min value v) := not_le.mp hcut
      have ihr := ih (min value v) (min beta (min value v)) (min_le_right _ _) hcut2
      rw [foldl_min_init] at ihr ⊢
      set M := rest.foldl (fun acc mv => min acc (F (b.applyMove mv true))) (⊤ : Score)
        with hM
      set L := abMinLoop rec b alpha (min value v) (min beta (min value v)) rest with hL
      have hvalL : L ≤ value := le_trans (abMinLoop_le rec b alpha rest _ _) (min_le_left _ _)
      have hvL : L ≤ v := le_trans (abMinLoop_le rec b alpha rest _ _) (min_le_right _ _)
      have e1 : min (min beta (min value v)) (min (min value v) M)
          = min beta (min v M) := by
        refine le_antisymm ?_ ?_ <;>
      simp only [le_min_iff] <;>
      simp only [min_le_iff, le_refl, true_or, or_true, true_and, and_true] <;>
      itauto
      have e2 : min (min beta (min value v)) L = min beta L := by
        refine le_antisymm ?_ ?_ <;>
      simp only [le_min_iff] <;>
      simp only [min_le_iff, le_refl, true_or, or_true, true_and, and_true] <;>
      itauto
      rw [e1, e2] at ihr
      have habs : min beta (min (min value (F c)) M) = min beta (min (F c) M) := by
        refine le_antisymm ?_ ?_ <;>
      simp only [le_min_iff] <;>
      simp only [min_le_iff, le_refl, true_or, or_true, true_and, and_true] <;>
      itauto
      rw [habs, score_min_distrib, max_min_distrib_left, hrec alpha beta c hab,
        ← max_min_distrib_left, ← score_min_distrib, ihr]

/-- Knuth-Moore style invariant: clipping into any window (alpha, beta)
makes the pruned and unpruned values agree. -/
theorem minimax_clip (d : ℕ) : ∀ (b : Board) (alpha beta : Score) (mc : Color),
    alpha < beta →
    min beta (max alpha (minimax b d alpha beta mc))
      = min beta (max alpha (fullMinimax b d mc)) := by
  induction d with
  | zero => intro b a bt mc _; rfl
  | succ d ih =>
    intro b alpha beta mc hab
    simp only [minimax, fullMinimax]
    cases hlm : (b.generateLegalMoves b.turn).isEmpty
    · simp only [hlm, Bool.false_eq_true, if_false]
      by_cases hside : b.turn = mc
      · simp only [hside, if_pos rfl]
        exact (abMaxLoop_clip (fun b2 => fullMinimax b2 d mc)
          (fun a bt b2 => minimax b2 d a bt mc) b beta
          (fun a bt b2 h => (ih b2 a bt mc h).symm)
          (b.generateLegalMoves mc) ⊥ alpha bot_le hab).symm
      · simp only [hside, if_neg hside]
        rw [← score_clip_comm alpha beta _ (le_of_lt hab),
          ← score_clip_comm alpha beta _ (le_of_lt hab)]
        exact (abMinLoop_clip (fun b2 => fullMinimax b2 d mc)
          (fun a bt b2 => minimax b2 d a bt mc) b alpha
          (fun a bt b2 h => by
            rw [score_clip_comm a bt _ (le_of_lt h), score_clip_comm a bt _ (le_of_lt h)]
            exact (ih b2 a bt mc h).symm)
          (b.generateLegalMoves b.turn) ⊤ beta le_top hab).symm
    · simp [hlm]

/-- C1: for every position, depth and maximizing color, the score computed
by the alpha-beta search (invoked, as the program does, with the full
window alpha = -inf, beta = +inf) equals the score of the unpruned full
minimax over the same game tree with the same maximizing color. -/
theorem alphabeta_eq_fullMinimax (b : Board) (d : ℕ) (mc : Color) :
    minimax b d ⊥ ⊤ mc = fullMinimax b d mc := by
  have h := minimax_clip d b ⊥ ⊤ mc bot_lt_top
  rwa [max_eq_right bot_le, max_eq_right bot_le, min_eq_right le_top,
    min_eq_right le_top] at h

/-- Setting an index and reading it back yields the new value (in bounds). -/
theorem getD_set_self {α : Type} (l : List α) (n : ℕ) (v d : α) (h : n < l.length) :
    (l.set n v).getD n d = v := by
  induction l generalizing n with
  | nil => simp at h
  | cons a l ih =>
    cases n with
    | zero => rfl
    | succ n => simpa using ih n (by simpa using h)

/-- Setting one index leaves reads at other indices unchanged. -/
theorem getD_set_ne {α : Type} (l : List α) (n k : ℕ) (v d : α) (h : n ≠ k) :
    (l.set n v).getD k d = l.getD k d := by
  induction l generalizing n k with
  | nil => simp
  | cons a l ih =>
    cases n with
    | zero =>
      cases k with
      | zero => exact absurd rfl h
      | succ k => simp
    | succ n =>
      cases k with
      | zero => simp
      | succ k => simpa using ih n k (by omega)

/-- Setting past the end of the list is a no-op. -/
theorem set_oob {α : Type} (l : List α) (n : ℕ) (v : α) (h : l.length ≤ n) :
    l.set n v = l := by
  induction l generalizing n with
  | nil => rfl
  | cons a l ih =>
    cases n with
    | zero => simp at h
    | succ n => simpa using ih n (by simpa using h)

/-- `cellSet` keeps the number of rows. -/
theorem length_cellSet (g : List (List (Option Piece))) (r c : ℕ) (v : Option Piece) :
    (cellSet g r c v).length = g.length := by
  simp [cellSet]

/-- `cellSet` keeps the length of every row. -/
theorem rowLength_cellSet (g : List (List (Option Piece))) (r c : ℕ) (v : Option Piece)
    (r' : ℕ) : ((cellSet g r c v).getD r' []).length = (g.getD r' []).length := by
  unfold cellSet
  by_cases h : r = r'
  · subst h
    by_cases hr : r < g.length
    · rw [getD_set_self _ _ _ _ hr]
      simp
    · rw [set_oob _ _ _ (by omega)]
  · rw [getD_set_ne _ _ _ _ _ h]

/-- Reading the freshly set cell. -/
theorem cellGet_cellSet_self (g : List (List (Option Piece))) (r c : ℕ) (v : Option Piece)
    (hr : r < g.length) (hc : c < (g.getD r []).length) :
    cellGet (cellSet g r c v) r c = v := by
  unfold cellGet cellSet
  rw [getD_set_self _ _ _ _ hr, getD_set_self _ _ _ _ hc]

/-- Reading any other cell after a `cellSet`. -/
theorem cellGet_cellSet_ne (g : List (List (Option Piece))) (r c : ℕ) (v : Option Piece)
    (r' c' : ℕ) (h : r ≠ r' ∨ c ≠ c') :
    cellGet (cellSet g r c v) r' c' = cellGet g r' c' := by
  unfold cellGet cellSet
  rcases h with h | h
  · rw [getD_set_ne _ _ _ _ _ h]
  · by_cases hr : r = r'
    · subst hr
      by_cases hlt : r < g.length
      · rw [getD_set_self _ _ _ _ hlt, getD_set_ne _ _ _ _ _ h]
      · rw [set_oob _ _ _ (by omega)]
    · rw [getD_set_ne _ _ _ _ _ hr]

/-- On-board coordinates index without negative wrap-around. -/
theorem pyIx_of_nonneg (i : ℤ) (h0 : 0 ≤ i) : pyIx i = i.toNat := by
  unfold pyIx
  rw [if_neg (by omega)]

/-- Distinct on-board squares have distinct (row, col) index pairs. -/
theorem onboard_ix_ne (sq sq' : Square) (h : isOnBoard sq = true) (h' : isOnBoard sq' = true)
    (hne : sq ≠ sq') : pyIx sq.1 ≠ pyIx sq'.1 ∨ pyIx sq.2 ≠ pyIx sq'.2 := by
  simp only [isOnBoard, Bool.and_eq_true, decide_eq_true_eq] at h h'
  have hne2 : sq.1 ≠ sq'.1 ∨ sq.2 ≠ sq'.2 := by
    by_contra hc
    push_neg at hc
    exact hne (Prod.ext hc.1 hc.2)
  unfold pyIx
  rw [if_neg (by omega), if_neg (by omega), if_neg (by omega), if_neg (by omega)]
  omega

/-- Setting an element preserves an all-predicate when the new value satisfies it. -/
theorem all_set {α : Type} (l : List α) (p : α → Bool) (n : ℕ) (v : α)
    (hl : l.all p = true) (hv : p v = true) : (l.set n v).all p = true := by
  induction l generalizing n with
  | nil => simp
  | cons a l ih =>
    simp only [List.all_cons, Bool.and_eq_true] at hl
    cases n with
    | zero => simp [List.all_cons, hv, hl.2]
    | succ n => simp [List.all_cons, hl.1, ih n hl.2]

/-- An all-predicate transfers to any in-bounds read. -/
theorem all_getD_lt {α : Type} (l : List α) (p : α → Bool) (n : ℕ) (d : α)
    (hl : l.all p = true) (hn : n < l.length) : p (l.getD n d) = true := by
  induction l generalizing n with
  | nil => simp at hn
  | cons a l ih =>
    simp only [List.all_cons, Bool.and_eq_true] at hl
    cases n with
    | zero => exact hl.1
    | succ n => simpa using ih n hl.2 (by simpa using hn)

/-- Sliding-ray moves never carry a promotion. -/
theorem slideRay_promo (b : Board) (sq : Square) (c : Color) (dr dc : ℤ) :
    ∀ (fuel : ℕ) (r cc : ℤ) (m : Move), m ∈ slideRay b sq c dr dc fuel r cc →
      m.promo = none := by
  intro fuel
  induction fuel with
  | zero => intro r cc m h; simp [slideRay] at h
  | succ f ih =>
    intro r cc m h
    simp only [slideRay] at h
    split at h
    · split at h
      · rcases List.mem_cons.mp h with h | h
        · rw [h]
        · exact ih _ _ _ h
      · split at h
        · simp only [List.mem_singleton] at h
          rw [h]
        · simp at h
    · simp at h

/-- Knight moves never carry a promotion. -/
theorem knightMoves_promo (b : Board) (sq : Square) (c : Color) (m : Move)
    (h : m ∈ knightMoves b sq c) : m.promo = none := by
  unfold knightMoves at h
  simp only [List.mem_flatMap] at h
  obtain ⟨d, _, hm⟩ := h
  split at hm
  · split at hm
    · simp only [List.mem_singleton] at hm
      rw [hm]
    · split at hm
      · simp only [List.mem_singleton] at hm
        rw [hm]
      · simp at hm
  · simp at hm

/-- King moves never carry a promotion. -/
theorem kingMoves_promo (b : Board) (sq : Square) (c : Color) (m : Move)
    (h : m ∈ kingMoves b sq c) : m.promo = none := by
  unfold kingMoves at h
  simp only [List.mem_flatMap] at h
  obtain ⟨dr, _, h⟩ := h
  obtain ⟨dc, _, hm⟩ := h
  split at hm
  · simp at hm
  · split at hm
    · split at hm
      · simp only [List.mem_singleton] at hm
        rw [hm]
      · split at hm
        · simp only [List.mem_singleton] at hm
          rw [hm]
        · simp at hm
    · simp at hm

/-- Sliding moves never carry a promotion. -/
theorem slidingMoves_promo (b : Board) (sq : Square) (c : Color)
    (dirs : List (ℤ × ℤ)) (m : Move) (h : m ∈ slidingMoves b sq c dirs) :
    m.promo = none := by
  unfold slidingMoves at h
  simp only [List.mem_flatMap] at h
  obtain ⟨d, _, hm⟩ := h
  exact slideRay_promo b sq c d.1 d.2 16 _ _ m hm

/-- Pawn moves carry no promotion or a piece-symbol promotion. -/
theorem pawnMoves_promo (b : Board) (sq : Square) (c : Color) (m : Move)
    (h : m ∈ pawnMoves b sq c) : validPromoOpt m.promo = true := by
  have hpmW : ∀ (tgt : Square),
      m ∈ promoChoices.map (fun p => Move.mk sq tgt (some p)) →
      validPromoOpt m.promo = true := by
    intro tgt hmem
    simp only [List.mem_map, promoChoices, List.mem_cons, List.not_mem_nil,
      or_false] at hmem
    obtain ⟨p, hp, hm2⟩ := hmem
    rw [← hm2]
    rcases hp with h1 | h1 | h1 | h1 <;> subst h1 <;> rfl
  have hpmB : ∀ (tgt : Square),
      m ∈ promoChoices.map (fun p => Move.mk sq tgt (some p.toLower)) →
      validPromoOpt m.promo = true := by
    intro tgt hmem
    simp only [List.mem_map, promoChoices, List.mem_cons, List.not_mem_nil,
      or_false] at hmem
    obtain ⟨p, hp, hm2⟩ := hmem
    rw [← hm2]
    rcases hp with h1 | h1 | h1 | h1 <;> subst h1 <;> rfl
  cases c
  · simp only [pawnMoves, reduceIte, List.flatMap_cons, List.flatMap_nil,
      List.append_nil] at h
    rcases List.mem_append.mp h with h | h
    · split at h
      · rcases List.mem_append.mp h with h2 | h2
        · split at h2
          · exact hpmW _ h2
          · simp only [List.mem_singleton] at h2
            rw [h2]
            rfl
        · split at h2
          · simp only [List.mem_singleton] at h2
            rw [h2]
            rfl
          · simp at h2
      · simp at h
    · rcases List.mem_append.mp h with h2 | h2 <;>
      · split at h2
        · split at h2
          · simp at h2
          · split at h2
            · split at h2
              · exact hpmW _ h2
              · simp only [List.mem_singleton] at h2
                rw [h2]
                rfl
            · simp at h2
        · simp at h2
  · have hbw : (Color.black = Color.white) = False := by simp
    simp only [pawnMoves, hbw, reduceIte, if_false, List.flatMap_cons,
      List.flatMap_nil, List.append_nil] at h
    rcases List.mem_append.mp h with h | h
    · split at h
      · rcases List.mem_append.mp h with h2 | h2
        · split at h2
          · exact hpmB _ h2
          · simp only [List.mem_singleton] at h2
            rw [h2]
            rfl
        · split at h2
          · simp only [List.mem_singleton] at h2
            rw [h2]
            rfl
          · simp at h2
      · simp at h
    · rcases List.mem_append.mp h with h2 | h2 <;>
      · split at h2
        · split at h2
          · simp at h2
          · split at h2
            · split at h2
              · exact hpmB _ h2
              · simp only [List.mem_singleton] at h2
                rw [h2]
                rfl
            · simp at h2
        · simp at h2

/-- Generated moves carry no promotion or a piece-symbol promotion. -/
theorem movesForPiece_promo (b : Board) (sq : Square) (p : Piece) (m : Move)
    (h : m ∈ movesForPiece b sq p) : validPromoOpt m.promo = true := by
  cases hu : p.isUpper
  · simp only [movesForPiece, hu, Bool.false_eq_true, if_false, reduceIte] at h
    split_ifs at h
    · exact pawnMoves_promo b sq Color.black m h
    · rw [knightMoves_promo b sq Color.black m h]; rfl
    · rw [slidingMoves_promo b sq Color.black _ m h]; rfl
    · rw [slidingMoves_promo b sq Color.black _ m h]; rfl
    · rw [slidingMoves_promo b sq Color.black _ m h]; rfl
    · rw [kingMoves_promo b sq Color.black m h]; rfl
    · simp at h
  · simp only [movesForPiece, hu, reduceIte] at h
    split_ifs at h
    · exact pawnMoves_promo b sq Color.white m h
    · rw [knightMoves_promo b sq Color.white m h]; rfl
    · rw [slidingMoves_promo b sq Color.white _ m h]; rfl
    · rw [slidingMoves_promo b sq Color.white _ m h]; rfl
    · rw [slidingMoves_promo b sq Color.white _ m h]; rfl
    · rw [kingMoves_promo b sq Color.white m h]; rfl
    · simp at h

/-- Pseudo-legal moves carry no promotion or a piece-symbol promotion. -/
theorem pseudoMoves_promo (b : Board) (c : Color) (m : Move)
    (h : m ∈ pseudoMoves b c) : validPromoOpt m.promo = true := by
  unfold pseudoMoves at h
  simp only [List.mem_flatMap] at h
  obtain ⟨r, _, h⟩ := h
  obtain ⟨col, _, hm⟩ := h
  split at hm
  · simp at hm
  · split at hm
    · simp at hm
    · exact movesForPiece_promo b _ _ m hm

/-- Every cell read from a well-formed grid is empty or a piece symbol. -/
theorem cellGet_valid (g : List (List (Option Piece))) (hall : g.all goodRow = true)
    (r c : ℕ) : validCellOpt (cellGet g r c) = true := by
  unfold cellGet
  by_cases hr : r < g.length
  · have hrow := all_getD_lt g goodRow r [] hall hr
    unfold goodRow at hrow
    simp only [Bool.and_eq_true, decide_eq_true_eq] at hrow
    by_cases hc : c < (g.getD r []).length
    · exact all_getD_lt _ validCellOpt c none hrow.2 hc
    · have h1 : (g.getD r []).getD c none = none :=
        List.getD_eq_default _ _ (by omega)
      rw [h1]
      rfl
  · have h0 : g.getD r [] = ([] : List (Option Piece)) :=
      List.getD_eq_default _ _ (by omega)
    rw [h0]
    rfl

/-- Writing a valid cell keeps all rows well-formed. -/
theorem all_goodRow_cellSet (g : List (List (Option Piece))) (r c : ℕ)
    (v : Option Piece) (hall : g.all goodRow = true) (hv : validCellOpt v = true) :
    (cellSet g r c v).all goodRow = true := by
  unfold cellSet
  by_cases hr : r < g.length
  · apply all_set _ _ _ _ hall
    have hrow := all_getD_lt g goodRow r [] hall hr
    unfold goodRow at hrow ⊢
    simp only [Bool.and_eq_true, decide_eq_true_eq] at hrow ⊢
    refine ⟨?_, all_set _ _ _ _ hrow.2 hv⟩
    rw [List.length_set]
    exact hrow.1
  · rw [set_oob _ _ _ (by omega)]
    exact hall

/-- Applying a move with a valid promotion field keeps the board well-formed. -/
theorem goodBoard_applyMove (b : Board) (m : Move) (st : Bool)
    (hg : goodBoard b = true) (hpromo : validPromoOpt m.promo = true) :
    goodBoard (b.applyMove m st) = true := by
  unfold goodBoard at hg ⊢
  simp only [Bool.and_eq_true, decide_eq_true_eq] at hg ⊢
  obtain ⟨hlen, hall⟩ := hg
  unfold Board.applyMove
  refine ⟨?_, ?_⟩
  · simp only [length_cellSet]
    exact hlen
  · apply all_goodRow_cellSet
    · exact all_goodRow_cellSet b.grid _ _ none hall rfl
    · cases hp : m.promo with
      | none =>
        exact cellGet_valid b.grid hall _ _
      | some p =>
        rw [hp] at hpromo
        exact hpromo

/-- Every position reachable by legal play is a well-formed 8x8 board of piece symbols. -/
theorem reachable_good (b : Board) (h : Reachable b) : goodBoard b = true := by
  induction h with
  | start => decide
  | step b m hb hmem ih =>
    exact goodBoard_applyMove b m true ih
      (pseudoMoves_promo b b.turn m (List.mem_filter.mp hmem).1)

/-- Piece symbols are not digits. -/
theorem valid_not_digit (p : Char) (h : validPieceChar p = true) : p.isDigit = false := by
  simp only [validPieceChar, List.mem_cons, List.not_mem_nil, or_false,
    decide_eq_true_eq] at h
  rcases h with h|h|h|h|h|h|h|h|h|h|h|h <;> subst h <;> rfl

/-- Piece symbols are not the row separator and not whitespace. -/
theorem validPieceChar_safe (p : Char) (h : validPieceChar p = true) :
    decide (p = '/') = false ∧ p.isWhitespace = false := by
  simp only [validPieceChar, List.mem_cons, List.not_mem_nil, or_false,
    decide_eq_true_eq] at h
  rcases h with h|h|h|h|h|h|h|h|h|h|h|h <;> subst h <;> exact ⟨rfl, rfl⟩

/-- Parsing a one-digit empty-run count expands it back into empty cells. -/
theorem parse_digits (e : ℕ) (h1 : 1 ≤ e) (h2 : e ≤ 9) (tail : List Char) :
    parseRowAux (Nat.toDigits 10 e ++ tail)
      = List.replicate e none ++ parseRowAux tail := by
  interval_cases e <;> rfl

/-- The decimal digits of a one-digit count are not separators or whitespace. -/
theorem toDigits_chars (e : ℕ) (h1 : 1 ≤ e) (h2 : e ≤ 9) :
    ∀ ch ∈ Nat.toDigits 10 e, decide (ch = '/') = false ∧ ch.isWhitespace = false := by
  interval_cases e <;> decide

/-- Rendered rows contain no row separator and no whitespace. -/
theorem renderRow_safe (row : List (Option Piece)) :
    ∀ e : ℕ, e + row.length ≤ 9 → row.all validCellOpt = true →
    ∀ ch ∈ renderRowAux row e, decide (ch = '/') = false ∧ ch.isWhitespace = false := by
  induction row with
  | nil =>
    intro e he _ ch hch
    simp only [List.length_nil, Nat.add_zero] at he
    unfold renderRowAux at hch
    split at hch
    · simp at hch
    · exact toDigits_chars e (by omega) (by omega) ch hch
  | cons cell rest ih =>
    intro e he hall ch hch
    simp only [List.all_cons, Bool.and_eq_true] at hall
    cases cell with
    | none =>
      exact ih (e + 1) (by simp at he ⊢; omega) hall.2 ch hch
    | some p =>
      simp only [renderRowAux] at hch
      rcases List.mem_append.mp hch with h | h
      · split at h
        · simp at h
        · exact toDigits_chars e (by omega) (by simp at he; omega) ch h
      · rcases List.mem_cons.mp h with h | h
        · subst h
          exact validPieceChar_safe ch hall.1
        · exact ih 0 (by simp at he ⊢; omega) hall.2 ch h

/-- Rendered rows are nonempty. -/
theorem renderRow_ne_nil (row : List (Option Piece)) :
    ∀ e : ℕ, 0 < e + row.length → e + row.length ≤ 9 →
    renderRowAux row e ≠ [] := by
  induction row with
  | nil =>
    intro e hpos hle
    simp only [List.length_nil, Nat.add_zero] at hpos hle
    unfold renderRowAux
    rw [if_neg (by omega)]
    have h9 : e ≤ 9 := by omega
    have h1 : 1 ≤ e := by simpa using hpos
    interval_cases e <;> decide
  | cons cell rest ih =>
    intro e hpos hle
    cases cell with
    | none =>
      exact ih (e + 1) (by omega) (by simp at hle ⊢; omega)
    | some p =>
      simp only [renderRowAux]
      intro hcontra
      rcases List.append_eq_nil.mp hcontra with ⟨_, h2⟩
      simp at h2

/-- Round trip of one board row through the FEN row codec. -/
theorem parse_render (row : List (Option Piece)) :
    ∀ e : ℕ, e + row.length ≤ 9 → row.all validCellOpt = true →
    parseRowAux (renderRowAux row e) = List.replicate e none ++ row := by
  induction row with
  | nil =>
    intro e he _
    simp only [List.length_nil, Nat.add_zero] at he
    unfold renderRowAux
    by_cases h0 : e = 0
    · subst h0
      rfl
    · rw [if_neg h0]
      have hp := parse_digits e (by omega) (by omega) []
      simpa only [show parseRowAux ([] : List Char) = [] from rfl, List.append_nil]
        using hp
  | cons cell rest ih =>
    intro e he hall
    simp only [List.length_cons] at he
    simp only [List.all_cons, Bool.and_eq_true] at hall
    cases cell with
    | none =>
      show parseRowAux (renderRowAux rest (e + 1)) = _
      rw [ih (e + 1) (by omega) hall.2, List.replicate_succ', List.append_assoc,
        List.singleton_append]
    | some p =>
      have hnd : p.isDigit = false := valid_not_digit p hall.1
      show parseRowAux ((if e = 0 then [] else Nat.toDigits 10 e)
          ++ p :: renderRowAux rest 0) = _
      by_cases h0 : e = 0
      · subst h0
        rw [if_pos rfl, List.nil_append]
        simp only [parseRowAux, hnd, Bool.false_eq_true, if_false]
        rw [ih 0 (by omega) hall.2]
        simp
      · rw [if_neg h0, parse_digits e (by omega) (by omega) (p :: renderRowAux rest 0)]
        simp only [parseRowAux, hnd, Bool.false_eq_true, if_false]
        rw [ih 0 (by omega) hall.2]
        simp

/-- Splitting a separator-free list yields the list itself. -/
theorem splitOnPred_no_sep (p : Char → Bool) :
    ∀ (a : List Char), (∀ ch ∈ a, p ch = false) → splitOnPred p a = [a] := by
  intro a
  induction a with
  | nil => intro _; rfl
  | cons c rest ih =>
    intro h
    have hc : p c = false := h c (List.mem_cons_self c rest)
    simp only [splitOnPred, hc, Bool.false_eq_true, if_false]
    rw [ih (fun ch hch => h ch (List.mem_cons_of_mem c hch))]

/-- Splitting peels off a separator-free prefix at the first separator. -/
theorem splitOnPred_sep (p : Char → Bool) (s : Char) (hs : p s = true) :
    ∀ (a l : List Char), (∀ ch ∈ a, p ch = false) →
    splitOnPred p (a ++ s :: l) = a :: splitOnPred p l := by
  intro a
  induction a with
  | nil =>
    intro l _
    simp only [List.nil_append, splitOnPred, hs, if_true]
  | cons c rest ih =>
    intro l h
    have hc : p c = false := h c (List.mem_cons_self c rest)
    simp only [List.cons_append, splitOnPred, hc, Bool.false_eq_true, if_false,
      List.append_eq]
    rw [ih l (fun ch hch => h ch (List.mem_cons_of_mem c hch))]

/-- Splitting on the separator inverts a separator-free join. -/
theorem pySplit_joinWith (sep : Char) :
    ∀ (rows : List (List Char)), rows ≠ [] →
    (∀ row ∈ rows, ∀ ch ∈ row, decide (ch = sep) = false) →
    pySplit sep (joinWith sep rows) = rows := by
  intro rows
  induction rows with
  | nil => intro h _; exact absurd rfl h
  | cons r rest ih =>
    intro _ hsafe
    cases rest with
    | nil =>
      show pySplit sep (joinWith sep [r]) = [r]
      unfold joinWith pySplit
      exact splitOnPred_no_sep _ r (hsafe r (by simp))
    | cons r2 rest2 =>
      show pySplit sep (r ++ sep :: joinWith sep (r2 :: rest2)) = _
      unfold pySplit
      rw [splitOnPred_sep _ sep (by simp) r _ (hsafe r (by simp))]
      have := ih (by simp) (fun row hrow ch hch => hsafe row (by simp [hrow]) ch hch)
      unfold pySplit at this
      rw [this]

/-- Joining whitespace-free rows with a non-whitespace separator stays whitespace-free. -/
theorem joinWith_safe (sep : Char) (rows : List (List Char))
    (hsep : sep.isWhitespace = false)
    (h : ∀ row ∈ rows, ∀ ch ∈ row, ch.isWhitespace = false) :
    ∀ ch ∈ joinWith sep rows, ch.isWhitespace = false := by
  induction rows with
  | nil => intro ch hch; simp [joinWith] at hch
  | cons r rest ih =>
    intro ch hch
    cases rest with
    | nil => exact h r (by simp) ch hch
    | cons r2 rest2 =>
      rcases List.mem_append.mp hch with h2 | h2
      · exact h r (by simp) ch h2
      · rcases List.mem_cons.mp h2 with h3 | h3
        · rw [h3]
          exact hsep
        · exact ih (fun row hrow => h row (by simp [hrow])) ch h3

/-- A join headed by a nonempty row is nonempty. -/
theorem joinWith_ne_nil (sep : Char) (r : List Char) (rest : List (List Char))
    (hr : r ≠ []) : joinWith sep (r :: rest) ≠ [] := by
  cases rest with
  | nil => exact hr
  | cons r2 rest2 =>
    show r ++ sep :: joinWith sep (r2 :: rest2) ≠ []
    intro hcontra
    rcases List.append_eq_nil.mp hcontra with ⟨_, h2⟩
    simp at h2

/-- Stripping leaves text with non-whitespace ends unchanged. -/
theorem pyStrip_mid (a b1 : List Char) (ha : a ≠ []) (hb : b1 ≠ [])
    (ha1 : ∀ ch ∈ a, ch.isWhitespace = false)
    (hb1 : ∀ ch ∈ b1, ch.isWhitespace = false) :
    pyStrip (a ++ ' ' :: b1) = a ++ ' ' :: b1 := by
  unfold pyStrip
  have hd1 : (a ++ ' ' :: b1).dropWhile Char.isWhitespace = a ++ ' ' :: b1 := by
    cases a with
    | nil => exact absurd rfl ha
    | cons c a2 =>
      rw [List.cons_append, List.dropWhile_cons, ha1 c (by simp)]
      simp
  rw [hd1]
  have hrev : (a ++ ' ' :: b1).reverse = b1.reverse ++ ' ' :: a.reverse := by
    simp [List.reverse_append, List.reverse_cons, List.append_assoc]
  rw [hrev]
  have hd2 : (b1.reverse ++ ' ' :: a.reverse).dropWhile Char.isWhitespace
      = b1.reverse ++ ' ' :: a.reverse := by
    cases hbr : b1.reverse with
    | nil =>
      exact absurd (by simpa using congrArg List.reverse hbr) hb
    | cons d br =>
      have hmem : d ∈ b1 := by
        rw [← List.mem_reverse, hbr]
        simp
      rw [List.cons_append, List.dropWhile_cons, hb1 d hmem]
      simp
  rw [hd2, List.reverse_append, List.reverse_cons, List.reverse_reverse,
    List.reverse_reverse, List.append_assoc, List.singleton_append]

/-- Whitespace splitting of two fields divided by one space. -/
theorem pySplitWs_mid (a b1 : List Char) (ha : a ≠ []) (hb : b1 ≠ [])
    (ha1 : ∀ ch ∈ a, ch.isWhitespace = false)
    (hb1 : ∀ ch ∈ b1, ch.isWhitespace = false) :
    pySplitWs (a ++ ' ' :: b1) = [a, b1] := by
  unfold pySplitWs
  rw [splitOnPred_sep Char.isWhitespace ' ' (by decide) a b1 ha1,
    splitOnPred_no_sep Char.isWhitespace b1 hb1]
  have haE : a.isEmpty = false := by
    cases a
    · exact absurd rfl ha
    · rfl
  have hbE : b1.isEmpty = false := by
    cases b1
    · exact absurd rfl hb
    · rfl
  simp [List.filter, haE, hbE]

/-- Reading every index of a list in order rebuilds the list. -/
theorem map_range_getD {α : Type} (l : List α) (d : α) :
    (List.range l.length).map (fun i => l.getD i d) = l := by
  induction l with
  | nil => rfl
  | cons c l2 ih =>
    rw [List.length_cons, List.range_succ_eq_map]
    simp only [List.map_cons, List.getD_cons_zero, List.map_map]
    rw [show ((fun i => (c :: l2).getD i d) ∘ Nat.succ) = (fun i => l2.getD i d)
      from rfl, ih]

/-- An all-predicate is monotone under pointwise implication. -/
theorem all_mono {α : Type} (l : List α) (p q : α → Bool)
    (h : ∀ x, p x = true → q x = true) (hl : l.all p = true) : l.all q = true := by
  simp only [List.all_eq_true] at hl ⊢
  exact fun x hx => h x (hl x hx)

/-- Well-formed rows have exactly 8 cells. -/
theorem goodRow_length (row : List (Option Piece)) (h : goodRow row = true) :
    decide (row.length = 8) = true := by
  unfold goodRow at h
  simp only [Bool.and_eq_true] at h
  exact h.1

/-- Any well-formed board round-trips through the FEN codec. -/
theorem roundtrip_good (b : Board) (hg : goodBoard b = true) :
    fromFen (Board.toFen b) = some b := by
  obtain ⟨grid, turn⟩ := b
  unfold goodBoard at hg
  simp only [Bool.and_eq_true, decide_eq_true_eq] at hg
  obtain ⟨hlen, hall⟩ := hg
  have hrow8 : ∀ r, r < 8 →
      (grid.getD r []).length = 8 ∧ (grid.getD r []).all validCellOpt = true := by
    intro r hr
    have hgr := all_getD_lt grid goodRow r [] hall (by omega)
    unfold goodRow at hgr
    simp only [Bool.and_eq_true, decide_eq_true_eq] at hgr
    exact hgr
  have hsafe : ∀ row ∈ (List.range 8).map (fun r => renderRowAux (grid.getD r []) 0),
      ∀ ch ∈ row, decide (ch = '/') = false ∧ ch.isWhitespace = false := by
    intro row hrow ch hch
    simp only [List.mem_map, List.mem_range] at hrow
    obtain ⟨r, hr, hreq⟩ := hrow
    subst hreq
    exact renderRow_safe (grid.getD r []) 0 (by rw [(hrow8 r hr).1]; omega)
      (hrow8 r hr).2 ch hch
  have hrow_ne : ∀ row ∈ (List.range 8).map (fun r => renderRowAux (grid.getD r []) 0),
      row ≠ [] := by
    intro row hrow
    simp only [List.mem_map, List.mem_range] at hrow
    obtain ⟨r, hr, hreq⟩ := hrow
    subst hreq
    exact renderRow_ne_nil (grid.getD r []) 0 (by rw [(hrow8 r hr).1]; omega)
      (by rw [(hrow8 r hr).1]; omega)
  have hlen8 : ((List.range 8).map (fun r => renderRowAux (grid.getD r []) 0)).length
      = 8 := by simp
  have hrows_ne : (List.range 8).map (fun r => renderRowAux (grid.getD r []) 0) ≠ [] := by
    intro hcontra
    rw [hcontra] at hlen8
    simp at hlen8
  have hbody_ne :
      joinWith '/' ((List.range 8).map (fun r => renderRowAux (grid.getD r []) 0)) ≠ [] := by
    cases hr0 : (List.range 8).map (fun r => renderRowAux (grid.getD r []) 0) with
    | nil => exact absurd hr0 hrows_ne
    | cons r rest =>
      exact joinWith_ne_nil '/' r rest (hrow_ne r (by rw [hr0]; simp))
  have hbody_ws :
      ∀ ch ∈ joinWith '/' ((List.range 8).map (fun r => renderRowAux (grid.getD r []) 0)),
        ch.isWhitespace = false :=
    joinWith_safe '/' _ (by decide) (fun row hrow ch hch => (hsafe row hrow ch hch).2)
  have htc_ws : ∀ ch ∈ [if turn = Color.white then 'w' else 'b'],
      ch.isWhitespace = false := by
    intro ch hch
    simp only [List.mem_singleton] at hch
    subst hch
    cases turn <;> decide
  unfold Board.toFen fromFen
  simp only []
  rw [pyStrip_mid _ _ hbody_ne (by simp) hbody_ws htc_ws,
    pySplitWs_mid _ _ hbody_ne (by simp) hbody_ws htc_ws]
  rw [if_neg (by simp)]
  simp only [List.getD_cons_zero, List.getD_cons_succ]
  rw [pySplit_joinWith '/' _ hrows_ne (fun row hrow ch hch => (hsafe row hrow ch hch).1)]
  rw [if_pos hlen8]
  have hgrid : ((List.range 8).map (fun r => renderRowAux (grid.getD r []) 0)).map
      parseRowAux = grid := by
    rw [List.map_map]
    have hcongr : ∀ r ∈ List.range 8,
        (parseRowAux ∘ fun r => renderRowAux (grid.getD r []) 0) r = grid.getD r [] := by
      intro r hr
      simp only [Function.comp_apply]
      rw [parse_render (grid.getD r []) 0 (by rw [(hrow8 r (by simpa using hr)).1]; omega)
        (hrow8 r (by simpa using hr)).2]
      simp
    rw [List.map_congr_left hcongr]
    conv_lhs => rw [show (8 : ℕ) = grid.length from hlen.symm]
    exact map_range_getD grid []
  rw [hgrid]
  rw [if_pos (all_mono grid goodRow _ goodRow_length hall)]
  cases turn
  · simp
  · simp

/-- C3: for every Position reachable by legal play from the start position,
parsing the emitted FEN text yields back the identical Position (same 64
cells and same side to move). -/
theorem fromFen_toFen_reachable (b : Board) (h : Reachable b) :
    fromFen (Board.toFen b) = some b :=
  roundtrip_good b (reachable_good b h)

/-- Witness for C3: the start position itself round-trips. -/
theorem fromFen_toFen_reachable_witness :
    Reachable startPosition
    ∧ fromFen (Board.toFen startPosition) = some startPosition :=
  ⟨Reachable.start, fromFen_toFen_reachable startPosition Reachable.start⟩

/-- C2 (amended): for every Position with an 8x8 grid and every Move whose
origin and destination are on the board and distinct, `apply_move` clears
the origin cell, sets the destination cell to the moving piece (or to the
promotion symbol exactly as stored in the move when it is set), leaves
every other board cell unchanged, and toggles the side to move exactly
when `switch_turn` is true. -/
theorem applyMove_spec (b : Board) (m : Move) (st : Bool)
    (hlen : b.grid.length = 8)
    (hrows : ∀ r : ℕ, r < 8 → (b.grid.getD r []).length = 8)
    (hfrom : isOnBoard m.from_sq = true) (hto : isOnBoard m.to_sq = true)
    (hne : m.from_sq ≠ m.to_sq) :
    (b.applyMove m st).pieceAt m.from_sq = none
    ∧ (b.applyMove m st).pieceAt m.to_sq =
        (match m.promo with
          | some p => some p
          | none => b.pieceAt m.from_sq)
    ∧ (∀ sq : Square, isOnBoard sq = true → sq ≠ m.from_sq → sq ≠ m.to_sq →
        (b.applyMove m st).pieceAt sq = b.pieceAt sq)
    ∧ (b.applyMove m st).turn = (if st then b.turn.opposite else b.turn) := by
  have hfi : pyIx m.from_sq.1 < 8 := by
    simp only [isOnBoard, Bool.and_eq_true, decide_eq_true_eq] at hfrom
    unfold pyIx
    rw [if_neg (by omega)]
    omega
  have hti : pyIx m.to_sq.1 < 8 := by
    simp only [isOnBoard, Bool.and_eq_true, decide_eq_true_eq] at hto
    unfold pyIx
    rw [if_neg (by omega)]
    omega
  have hfj : pyIx m.from_sq.2 < 8 := by
    simp only [isOnBoard, Bool.and_eq_true, decide_eq_true_eq] at hfrom
    unfold pyIx
    rw [if_neg (by omega)]
    omega
  have htj : pyIx m.to_sq.2 < 8 := by
    simp only [isOnBoard, Bool.and_eq_true, decide_eq_true_eq] at hto
    unfold pyIx
    rw [if_neg (by omega)]
    omega
  have hix : pyIx m.to_sq.1 ≠ pyIx m.from_sq.1 ∨ pyIx m.to_sq.2 ≠ pyIx m.from_sq.2 :=
    onboard_ix_ne m.to_sq m.from_sq hto hfrom (by exact fun hh => hne hh.symm)
  refine ⟨?_, ?_, ?_, rfl⟩
  · show cellGet (cellSet (cellSet b.grid (pyIx m.from_sq.1) (pyIx m.from_sq.2) none)
        (pyIx m.to_sq.1) (pyIx m.to_sq.2) _) (pyIx m.from_sq.1) (pyIx m.from_sq.2) = none
    rw [cellGet_cellSet_ne _ _ _ _ _ _ hix]
    exact cellGet_cellSet_self b.grid _ _ none (by omega)
      (by rw [hrows _ hfi]; exact hfj)
  · show cellGet (cellSet (cellSet b.grid (pyIx m.from_sq.1) (pyIx m.from_sq.2) none)
        (pyIx m.to_sq.1) (pyIx m.to_sq.2) _) (pyIx m.to_sq.1) (pyIx m.to_sq.2) = _
    rw [cellGet_cellSet_self]
    · rw [length_cellSet]
      omega
    · rw [rowLength_cellSet, hrows _ hti]
      exact htj
  · intro sq hsq hnf hnt
    show cellGet (cellSet (cellSet b.grid (pyIx m.from_sq.1) (pyIx m.from_sq.2) none)
        (pyIx m.to_sq.1) (pyIx m.to_sq.2) _) (pyIx sq.1) (pyIx sq.2) = cellGet b.grid _ _
    rw [cellGet_cellSet_ne _ _ _ _ _ _ (onboard_ix_ne m.to_sq sq hto hsq
        (fun hh => hnt hh.symm)),
      cellGet_cellSet_ne _ _ _ _ _ _ (onboard_ix_ne m.from_sq sq hfrom hsq
        (fun hh => hnf hh.symm))]

/-- Witness for C2: applying the pawn push e2e4 to the start position. -/
theorem applyMove_spec_witness :
    startPosition.grid.length = 8
    ∧ isOnBoard ((6, 4) : Square) = true
    ∧ ((6, 4) : Square) ≠ ((4, 4) : Square)
    ∧ ((startPosition.applyMove (Move.mk (6, 4) (4, 4) none) true).pieceAt (6, 4) = none
       ∧ (startPosition.applyMove (Move.mk (6, 4) (4, 4) none) true).pieceAt (4, 4) =
           (match (Move.mk (6, 4) (4, 4) none).promo with
             | some p => some p
             | none => startPosition.pieceAt (6, 4))
       ∧ (∀ sq : Square, isOnBoard sq = true → sq ≠ (6, 4) → sq ≠ (4, 4) →
           (startPosition.applyMove (Move.mk (6, 4) (4, 4) none) true).pieceAt sq
             = startPosition.pieceAt sq)
       ∧ (startPosition.applyMove (Move.mk (6, 4) (4, 4) none) true).turn =
           (if true then startPosition.turn.opposite else startPosition.turn)) :=
  ⟨by decide, by decide, by decide,
    applyMove_spec startPosition (Move.mk (6, 4) (4, 4) none) true (by decide)
      (by decide) (by decide) (by decide) (by decide)⟩

/-- C8 (amended): `from_long_algebraic` fails exactly when the trimmed
length is not 4 or 5, or when either two-character square token fails the
file/rank check of `str_to_square`, or when a length-5 input's fifth
character (upper-cased) is not one of {Q,R,B,N}; it performs no other
validation (any input passing these checks parses successfully). -/
theorem fromLongAlgebraic_failure_iff (s : List Char) :
    fromLongAlgebraic s = none ↔
      (¬((pyStrip s).length = 4 ∨ (pyStrip s).length = 5)
        ∨ strToSquare ((pyStrip s).take 2) = none
        ∨ strToSquare (((pyStrip s).drop 2).take 2) = none
        ∨ ((pyStrip s).length = 5 ∧ ((pyStrip s).getD 4 ' ').toUpper ∉ promoChoices)) := by
  simp only [fromLongAlgebraic]
  by_cases hlen : (pyStrip s).length = 4 ∨ (pyStrip s).length = 5
  · simp only [hlen, if_true, not_true, false_or]
    cases h1 : strToSquare ((pyStrip s).take 2) with
    | none => simp [h1]
    | some fsq =>
      cases h2 : strToSquare (((pyStrip s).drop 2).take 2) with
      | none => simp [h2]
      | some tsq =>
        by_cases h5 : (pyStrip s).length = 5
        · by_cases hp : ((pyStrip s).getD 4 ' ').toUpper ∈ promoChoices
          · simp [h5, hp]
          · simp [h5, hp]
        · simp [h5]
  · simp [hlen]

/-- Counterexample for C8 as stated: "z9a1" has trimmed length 4 and no
fifth character, so by the claim it should not fail, yet
`from_long_algebraic` rejects it (the square token "z9" fails the
file/rank character check in `str_to_square`). -/
theorem fromLongAlgebraic_fails_on_bad_square :
    (pyStrip ("z9a1".data)).length = 4 ∧ fromLongAlgebraic ("z9a1".data) = none := by
  decide

end Chess
